import Mathlib

/-!
Verification of the RLP native codec glue
(`aptos-move/framework/src/natives/rlp.rs`) and of the RLP codec core
it invokes.  The native layer (`native_encode`, `native_decode`) is
embedded directly from the Rust source; the codec core
(`rlp_encode` / `rlp_decode` on runtime values) is not part of the
source fragment and is modelled from the specification's §3–§4
(Value Model, Encoder, Decoder with canonicality checks).
-/

namespace RLP

/-- Modelled from the spec: the two-variant Value Model (§3).  `bytes` is a
leaf holding raw octets (each conceptually `< 256`, represented as `Nat`);
`list` is an ordered sequence of child Values. -/
inductive RLPValue where
  | bytes (bs : List Nat)
  | list (vs : List RLPValue)

/-- Big-endian minimal-width encoding of a natural number, fuel-driven so
that it reduces definitionally.  `beBytesGo fuel n` is the minimal
big-endian byte list of `n` provided `n ≤ fuel`. -/
def beBytesGo : Nat → Nat → List Nat
  | _, 0 => []
  | 0, _ + 1 => []
  | fuel + 1, n + 1 => beBytesGo fuel ((n + 1) / 256) ++ [(n + 1) % 256]

/-- Modelled from the spec: the big-endian minimal-width encoding of a
length `n`, with no leading zero byte (§4.1). -/
def beBytes (n : Nat) : List Nat := beBytesGo n n

/-- Big-endian interpretation of a byte list as a natural number, used by
the decoder to read explicit length fields. -/
def fromBE (l : List Nat) : Nat := l.foldl (fun acc b => acc * 256 + b) 0

/-- Modelled from the spec: the two-tier length prefix of §4.1 — one byte
`base + L` when `L ≤ 55`, else `base + 55 + len(L)` followed by the
big-endian minimal-width encoding of `L` (bases `0x80` for Bytes,
`0xc0` for List; `0x80 + 55 = 0xb7`, `0xc0 + 55 = 0xf7`). -/
def lenPrefix (base L : Nat) : List Nat :=
  if L ≤ 55 then [base + L]
  else (base + 55 + (beBytes L).length) :: beBytes L

mutual
/-- Modelled from the spec: the Encoder of §4.1.  A single byte `< 0x80`
encodes as itself; any other Bytes leaf as `lenPrefix 0x80 L ++ content`;
a List as `lenPrefix 0xc0 L ++ payload` where `payload` is the
concatenation of the children's encodings.  This is the codec core
invoked (but not defined) by `native_encode` in the source. -/
def rlp_encode : RLPValue → List Nat
  | .bytes bs =>
      if bs.length = 1 ∧ bs.headI < 0x80 then bs
      else lenPrefix 0x80 bs.length ++ bs
  | .list vs =>
      lenPrefix 0xc0 (rlp_encode_list vs).length ++ rlp_encode_list vs

/-- Concatenation of the encodings of a list of Values (the payload of a
List item, §4.1). -/
def rlp_encode_list : List RLPValue → List Nat
  | [] => []
  | v :: vs => rlp_encode v ++ rlp_encode_list vs
end

mutual
/-- Modelled from the spec: the Decoder of §4.2, recursive descent driven
by the first byte of each item, returning the decoded Value and the
unconsumed remainder, or `none` on any malformation or canonicality
violation (leading-zero length, long form for a short length, prefixed
single byte `< 0x80`, truncation).  The `fuel` argument only serves
termination; each recursion level consumes at least one input byte, so
`2 * length + 2` fuel always suffices. -/
def decodeItem : Nat → List Nat → Option (RLPValue × List Nat)
  | 0, _ => none
  | _ + 1, [] => none
  | fuel + 1, b :: rest =>
    if b < 0x80 then some (.bytes [b], rest)
    else if b ≤ 0xb7 then
      let L := b - 0x80
      if L ≤ rest.length then
        let content := rest.take L
        if L = 1 ∧ content.headI < 0x80 then none
        else some (.bytes content, rest.drop L)
      else none
    else if b ≤ 0xbf then
      let ll := b - 0xb7
      if ll ≤ rest.length then
        let lenBytes := rest.take ll
        let rest2 := rest.drop ll
        if lenBytes.headI = 0 then none
        else
          let L := fromBE lenBytes
          if L ≤ 55 then none
          else if L ≤ rest2.length then some (.bytes (rest2.take L), rest2.drop L)
          else none
      else none
    else if b ≤ 0xf7 then
      let L := b - 0xc0
      if L ≤ rest.length then
        match decodeItems fuel (rest.take L) with
        | some vs => some (.list vs, rest.drop L)
        | none => none
      else none
    else if b ≤ 0xff then
      let ll := b - 0xf7
      if ll ≤ rest.length then
        let lenBytes := rest.take ll
        let rest2 := rest.drop ll
        if lenBytes.headI = 0 then none
        else
          let L := fromBE lenBytes
          if L ≤ 55 then none
          else if L ≤ rest2.length then
            match decodeItems fuel (rest2.take L) with
            | some vs => some (.list vs, rest2.drop L)
            | none => none
          else none
      else none
    else none

/-- Decode a list payload item by item until it is fully consumed (§4.2);
`none` if the payload does not parse into whole items. -/
def decodeItems : Nat → List Nat → Option (List RLPValue)
  | _, [] => some []
  | 0, _ :: _ => none
  | fuel + 1, b :: bs =>
    match decodeItem fuel (b :: bs) with
    | some (v, rem) => (decodeItems fuel rem).map (v :: ·)
    | none => none
end

/-- Modelled from the spec: top-level decode (§4.2) — decode one item and
require the entire input to be consumed (trailing bytes are an error).
This is the codec core invoked (but not defined) by `native_decode`. -/
def rlp_decode (input : List Nat) : Option RLPValue :=
  match decodeItem (2 * input.length + 2) input with
  | some (v, []) => some v
  | _ => none

/-- Well-formedness bound of §3/§4.1: every Bytes leaf and every List
payload has length below `2^64`, so its length prefix fits the RLP
framing.  This is the "constructible within depth/size bounds" side
condition of the round-trip property. -/
inductive WF : RLPValue → Prop
  | bytes (bs : List Nat) : bs.length < 2 ^ 64 → WF (.bytes bs)
  | list (vs : List RLPValue) :
      (rlp_encode_list vs).length < 2 ^ 64 →
      (∀ v ∈ vs, WF v) → WF (.list vs)

/-- Move type arguments (`ty_args: Vec<Type>` in the source).  The natives
only count them (and `native_decode` pops one without consulting it), so a
small representative type suffices. -/
inductive MoveType where
  | u8
  | address
  | vector (t : MoveType)

/-- Move runtime values as they appear in the natives' argument and result
vectors: a `Reference` (an index into the store of referenced runtime
values) or a `vector<u8>` (the shape `Value::vector_u8` constructs). -/
inductive MoveValue where
  | ref (r : Nat)
  | vectorU8 (bs : List Nat)

/-- The errors of `SafeNativeResult` that the two natives can produce:
a Move abort with a status code (`SafeNativeError::Abort`), an invariant
violation (what `safely_assert_eq!` / `safely_pop_arg!` / `read_ref`
failures raise), and gas exhaustion from `context.charge`. -/
inductive SafeNativeError where
  | abort (code : Nat)
  | invariantViolation
  | outOfGas

/-- Modelled from the spec: the reserved status code meaning
"deserialization failure" (`NFE_BCS_SERIALIZATION_FAILURE` from
`aptos_types::vm_status::sub_status`, whose definition is outside the
source fragment). -/
def NFE_BCS_SERIALIZATION_FAILURE : Nat := 0x1

/-- Modelled from the spec: the gas parameter both natives charge
(`OBJECT_EXISTS_AT_BASE` from the gas schedule, defined outside the source
fragment).  A fixed per-call base cost; its exact magnitude is irrelevant
to every property proved here. -/
def OBJECT_EXISTS_AT_BASE : Nat := 919

/-- The slice of `SafeNativeContext` the natives touch: the remaining gas
balance and the cumulative gas charged so far. -/
structure NativeContext where
  balance : Nat
  charged : Nat

/-- Modelled from the spec: `SafeNativeContext::charge` — deduct the
amount from the balance, recording it, or fail with `OutOfGas`. -/
def charge (ctx : NativeContext) (amount : Nat) :
    Except SafeNativeError NativeContext :=
  if amount ≤ ctx.balance then
    .ok ⟨ctx.balance - amount, ctx.charged + amount⟩
  else .error .outOfGas

/-- `safely_pop_arg!(args, Reference)`: pop the last argument and require
it to be a `Reference`; any other shape (or no argument) is an invariant
violation. -/
def popRefArg (args : List MoveValue) : Except SafeNativeError Nat :=
  match args.getLast? with
  | some (.ref r) => .ok r
  | _ => .error .invariantViolation

/-- `Reference::read_ref`: read the runtime value a reference points to
(the store maps reference indices to runtime values, viewed through the
Value Model); a dangling reference is an invariant violation. -/
def readRef (store : List RLPValue) (r : Nat) :
    Except SafeNativeError RLPValue :=
  match store.get? r with
  | some v => .ok v
  | none => .error .invariantViolation

/-- Modelled from the spec: `Value::rlp_decode(&mut buffer)` — the codec
core called on line 50 of the source but defined outside the fragment.
It decodes the referenced `vector<u8>`'s bytes and on success fills the
output buffer with the byte representation of the decoded Value (here its
canonical re-encoding; only success/failure and the byte-vector shape of
the buffer are relied upon by any property below). -/
def rlp_decode_fill : RLPValue → Option (List Nat)
  | .bytes bs => (rlp_decode bs).map rlp_encode
  | .list _ => none

/-- `native_encode` from the source, line by line: assert one type
argument, assert one value argument, pop the argument as a `Reference`,
charge `OBJECT_EXISTS_AT_BASE`, read the reference, and return the single
value `Value::vector_u8(val.rlp_encode())`.  The store is returned
unchanged alongside the result to make the frame condition statable. -/
def native_encode (ctx : NativeContext) (store : List RLPValue)
    (tyArgs : List MoveType) (args : List MoveValue) :
    Except SafeNativeError (NativeContext × List RLPValue × List MoveValue) := do
  unless tyArgs.length = 1 do throw .invariantViolation
  unless args.length = 1 do throw .invariantViolation
  let r ← popRefArg args
  let ctx ← charge ctx OBJECT_EXISTS_AT_BASE
  let v ← readRef store r
  pure (ctx, store, [MoveValue.vectorU8 (rlp_encode v)])

/-- `native_decode` from the source, line by line: assert one type
argument, assert one value argument, pop the type argument (bound to
`val_type`, never consulted), pop the value argument as a `Reference`,
read the reference, charge `OBJECT_EXISTS_AT_BASE`, run `rlp_decode`
into a buffer, and either abort with `NFE_BCS_SERIALIZATION_FAILURE` or
return the single value `Value::vector_u8(buffer)`. -/
def native_decode (ctx : NativeContext) (store : List RLPValue)
    (tyArgs : List MoveType) (args : List MoveValue) :
    Except SafeNativeError (NativeContext × List RLPValue × List MoveValue) := do
  unless tyArgs.length = 1 do throw .invariantViolation
  unless args.length = 1 do throw .invariantViolation
  let _val_type := tyArgs.getLast?
  let r ← popRefArg args
  let v ← readRef store r
  let ctx ← charge ctx OBJECT_EXISTS_AT_BASE
  match rlp_decode_fill v with
  | some buffer => pure (ctx, store, [MoveValue.vectorU8 buffer])
  | none => throw (.abort NFE_BCS_SERIALIZATION_FAILURE)

/-- The head of an append is the head of the first part when it is
nonempty. -/
theorem headI_append {l l2 : List Nat} (h : l ≠ []) :
    (l ++ l2).headI = l.headI := by
  cases l with
  | nil => exact absurd rfl h
  | cons a t => rfl

/-- Interpreting a byte list extended by one byte. -/
theorem fromBE_append (l : List Nat) (b : Nat) :
    fromBE (l ++ [b]) = 256 * fromBE l + b := by
  simp [fromBE, List.foldl_append, Nat.mul_comm]

/-- `beBytesGo` round-trips through `fromBE` whenever the fuel covers the
number. -/
theorem fromBE_beBytesGo : ∀ fuel n, n ≤ fuel → fromBE (beBytesGo fuel n) = n := by
  intro fuel
  induction fuel with
  | zero =>
    intro n h
    interval_cases n
    simp [beBytesGo, fromBE]
  | succ f ih =>
    intro n h
    match n with
    | 0 => simp [beBytesGo, fromBE]
    | m + 1 =>
      have hq : (m + 1) / 256 ≤ f := by
        have := Nat.div_lt_self (Nat.succ_pos m) (by omega : 1 < 256)
        omega
      rw [beBytesGo, fromBE_append, ih _ hq]
      omega

/-- The big-endian minimal encoding of a positive number is nonempty and
has no leading zero byte. -/
theorem beBytesGo_headI : ∀ fuel n, n ≤ fuel → 0 < n →
    beBytesGo fuel n ≠ [] ∧ (beBytesGo fuel n).headI ≠ 0 := by
  intro fuel
  induction fuel with
  | zero => intro n h h0; omega
  | succ f ih =>
    intro n h h0
    match n with
    | m + 1 =>
      rw [beBytesGo]
      by_cases hq : (m + 1) / 256 = 0
      · have hlt : m + 1 < 256 := by
          by_contra hge
          have : 0 < (m + 1) / 256 := Nat.div_pos (by omega) (by omega)
          omega
        rw [hq]
        simp only [beBytesGo, List.nil_append]
        refine ⟨by simp, ?_⟩
        have hm : (m + 1) % 256 = m + 1 := Nat.mod_eq_of_lt hlt
        simp only [List.headI, hm]
        omega
      · have hqf : (m + 1) / 256 ≤ f := by
          have := Nat.div_lt_self (Nat.succ_pos m) (by omega : 1 < 256)
          omega
        obtain ⟨hne, hhd⟩ := ih _ hqf (Nat.pos_of_ne_zero hq)
        refine ⟨by simp, ?_⟩
        rw [headI_append hne]
        exact hhd

/-- Length bound for the big-endian minimal encoding. -/
theorem beBytesGo_length : ∀ fuel n k, n ≤ fuel → n < 256 ^ k →
    (beBytesGo fuel n).length ≤ k := by
  intro fuel
  induction fuel with
  | zero =>
    intro n k h hk
    interval_cases n
    simp [beBytesGo]
  | succ f ih =>
    intro n k h hk
    match n with
    | 0 => simp [beBytesGo]
    | m + 1 =>
      match k with
      | 0 => simp at hk
      | j + 1 =>
        have hqf : (m + 1) / 256 ≤ f := by
          have := Nat.div_lt_self (Nat.succ_pos m) (by omega : 1 < 256)
          omega
        have hq : (m + 1) / 256 < 256 ^ j := by
          rw [Nat.div_lt_iff_lt_mul (by omega : (0:ℕ) < 256)]
          calc m + 1 < 256 ^ (j + 1) := hk
          _ = 256 ^ j * 256 := by ring
        rw [beBytesGo]
        have := ih _ j hqf hq
        simp only [List.length_append, List.length_cons, List.length_nil]
        omega

/-- `fromBE ∘ beBytes` is the identity. -/
theorem fromBE_beBytes (n : Nat) : fromBE (beBytes n) = n :=
  fromBE_beBytesGo n n le_rfl

/-- `beBytes` of a positive number is nonempty with nonzero head. -/
theorem beBytes_headI {n : Nat} (h : 0 < n) :
    beBytes n ≠ [] ∧ (beBytes n).headI ≠ 0 :=
  beBytesGo_headI n n le_rfl h

/-- `beBytes` length bound. -/
theorem beBytes_length {n k : Nat} (h : n < 256 ^ k) :
    (beBytes n).length ≤ k :=
  beBytesGo_length n n k le_rfl h

/-- Structural induction for the nested inductive `RLPValue`, with the
list case receiving the hypothesis for every member. -/
theorem RLPValue.inductionOn {P : RLPValue → Prop}
    (hb : ∀ bs, P (RLPValue.bytes bs))
    (hl : ∀ vs, (∀ v ∈ vs, P v) → P (RLPValue.list vs)) (v : RLPValue) :
    P v := by
  have key : ∀ n (w : RLPValue), sizeOf w ≤ n → P w := by
    intro n
    induction n with
    | zero =>
      intro w hw
      cases w <;> simp at hw
    | succ n ih =>
      intro w hw
      cases w with
      | bytes bs => exact hb bs
      | list vs =>
        refine hl vs fun x hx => ih x ?_
        have h1 : sizeOf x < sizeOf vs := List.sizeOf_lt_of_mem hx
        have h2 : sizeOf (RLPValue.list vs) = 1 + sizeOf vs := by simp
        omega
  exact key (sizeOf v) v le_rfl

/-- The length prefix is never empty. -/
theorem lenPrefix_ne_nil (base L : Nat) : lenPrefix base L ≠ [] := by
  unfold lenPrefix
  split <;> simp

/-- Every encoding is nonempty (every item carries at least its first
byte). -/
theorem rlp_encode_ne_nil (v : RLPValue) : rlp_encode v ≠ [] := by
  cases v with
  | bytes bs =>
    rw [rlp_encode]
    split
    · rename_i h
      intro hnil
      rw [hnil] at h
      simp at h
    · intro hnil
      rcases List.append_eq_nil.mp hnil with ⟨h1, _⟩
      exact lenPrefix_ne_nil _ _ h1
  | list vs =>
    intro hnil
    rw [rlp_encode] at hnil
    rcases List.append_eq_nil.mp hnil with ⟨h1, _⟩
    exact lenPrefix_ne_nil _ _ h1

/-- Every encoding has positive length. -/
theorem rlp_encode_length_pos (v : RLPValue) : 1 ≤ (rlp_encode v).length := by
  have := rlp_encode_ne_nil v
  cases h : rlp_encode v with
  | nil => exact absurd h this
  | cons a t => simp

/-- A list payload decodes back to its items, provided every item decodes
back and the fuel covers twice the payload plus one. -/
theorem decodeItems_encList (vs : List RLPValue)
    (ih : ∀ v ∈ vs, ∀ rest fuel, WF v → 2 * (rlp_encode v).length ≤ fuel →
      decodeItem fuel (rlp_encode v ++ rest) = some (v, rest))
    (hwf : ∀ v ∈ vs, WF v) :
    ∀ fuel, 2 * (rlp_encode_list vs).length + 1 ≤ fuel →
      decodeItems fuel (rlp_encode_list vs) = some vs := by
  induction vs with
  | nil =>
    intro fuel _
    simp [rlp_encode_list, decodeItems]
  | cons v vs ihl =>
    intro fuel hfuel
    have hv := ih v (List.mem_cons_self v vs)
    have hwv := hwf v (List.mem_cons_self v vs)
    have hlen1 := rlp_encode_length_pos v
    have hlist : (rlp_encode_list (v :: vs)).length
        = (rlp_encode v).length + (rlp_encode_list vs).length := by
      rw [rlp_encode_list]
      simp
    rw [hlist] at hfuel
    obtain ⟨f, rfl⟩ : ∃ f, fuel = f + 1 := ⟨fuel - 1, by omega⟩
    obtain ⟨e, es, hE⟩ : ∃ e es, rlp_encode v = e :: es := by
      cases hEnc : rlp_encode v with
      | nil => exact absurd hEnc (rlp_encode_ne_nil v)
      | cons e es => exact ⟨e, es, rfl⟩
    rw [rlp_encode_list, hE, List.cons_append, decodeItems,
      ← List.cons_append, ← hE,
      hv (rlp_encode_list vs) f hwv (by omega)]
    show Option.map (fun x => v :: x) (decodeItems f (rlp_encode_list vs))
      = some (v :: vs)
    rw [ihl (fun x hx => ih x (List.mem_cons_of_mem v hx))
        (fun x hx => hwf x (List.mem_cons_of_mem v hx)) f (by omega)]
    rfl

/-- Main inversion lemma: decoding the encoding of a well-formed Value,
followed by an arbitrary remainder, yields exactly that Value and the
remainder, for any fuel of at least twice the encoding length. -/
theorem decodeItem_encode (v : RLPValue) : ∀ rest fuel, WF v →
    2 * (rlp_encode v).length ≤ fuel →
    decodeItem fuel (rlp_encode v ++ rest) = some (v, rest) := by
  induction v using RLPValue.inductionOn with
  | hb bs =>
    intro rest fuel hwf hfuel
    obtain ⟨f, rfl⟩ : ∃ f, fuel = f + 1 :=
      ⟨fuel - 1, by have := rlp_encode_length_pos (RLPValue.bytes bs); omega⟩
    by_cases hopt : bs.length = 1 ∧ bs.headI < 0x80
    · -- single-byte optimization: the encoding is the byte itself
      have hE : rlp_encode (RLPValue.bytes bs) = bs := by
        rw [rlp_encode, if_pos hopt]
      obtain ⟨b, rfl⟩ : ∃ b, bs = [b] := by
        have h1 := hopt.1
        cases bs with
        | nil => simp at h1
        | cons a t =>
          cases t with
          | nil => exact ⟨a, rfl⟩
          | cons c u => simp at h1
      have hb : b < 0x80 := hopt.2
      rw [hE, List.cons_append, List.nil_append, decodeItem, if_pos hb]
    · have hsz : bs.length < 2 ^ 64 := by cases hwf; assumption
      by_cases hshort : bs.length ≤ 55
      · -- short Bytes form
        have hE : rlp_encode (RLPValue.bytes bs) = (0x80 + bs.length) :: bs := by
          rw [rlp_encode, if_neg hopt]
          unfold lenPrefix
          rw [if_pos hshort]
          rfl
        have c1 : ¬ ((0x80:ℕ) + bs.length < 0x80) := by omega
        have c2 : (0x80:ℕ) + bs.length ≤ 0xb7 := by omega
        have c3 : (0x80:ℕ) + bs.length - 0x80 = bs.length := by omega
        have c4 : bs.length ≤ (bs ++ rest).length := by simp
        rw [hE, List.cons_append, decodeItem]
        simp only [c1, c2, c3, if_false, if_true, eq_self_iff_true,
          List.take_left, List.drop_left, if_neg hopt, if_pos c4,
          ite_true, ite_false]
      · -- long Bytes form
        have hL0 : 55 < bs.length := by omega
        have hd1 : 1 ≤ (beBytes bs.length).length := by
          obtain ⟨hne, _⟩ := beBytes_headI (show 0 < bs.length by omega)
          cases h : beBytes bs.length with
          | nil => exact absurd h hne
          | cons a t => simp
        have hd8 : (beBytes bs.length).length ≤ 8 := by
          apply beBytes_length
          calc bs.length < 2 ^ 64 := hsz
          _ = 256 ^ 8 := by norm_num
        have hE : rlp_encode (RLPValue.bytes bs)
            = (0x80 + 55 + (beBytes bs.length).length)
              :: (beBytes bs.length ++ bs) := by
          rw [rlp_encode, if_neg hopt]
          unfold lenPrefix
          rw [if_neg hshort]
          rfl
        have c1 : ¬ ((0x80:ℕ) + 55 + (beBytes bs.length).length < 0x80) := by
          omega
        have c2 : ¬ ((0x80:ℕ) + 55 + (beBytes bs.length).length ≤ 0xb7) := by
          omega
        have c3 : (0x80:ℕ) + 55 + (beBytes bs.length).length ≤ 0xbf := by
          omega
        have c4 : (0x80:ℕ) + 55 + (beBytes bs.length).length - 0xb7
            = (beBytes bs.length).length := by omega
        have c5 : (beBytes bs.length).length
            ≤ (beBytes bs.length ++ (bs ++ rest)).length := by simp
        have c6 : ¬ ((beBytes bs.length).headI = 0) :=
          (beBytes_headI (show 0 < bs.length by omega)).2
        have c7 : bs.length ≤ (bs ++ rest).length := by simp
        rw [hE, List.cons_append, List.append_assoc, decodeItem]
        simp only [c1, c2, c3, c4, if_false, if_true, ite_true, ite_false,
          if_pos c5, List.take_left, List.drop_left, if_neg c6,
          fromBE_beBytes, if_neg hshort, if_pos c7]
  | hl vs ih =>
    intro rest fuel hwf hfuel
    obtain ⟨f, rfl⟩ : ∃ f, fuel = f + 1 :=
      ⟨fuel - 1, by have := rlp_encode_length_pos (RLPValue.list vs); omega⟩
    have hsz : (rlp_encode_list vs).length < 2 ^ 64 := by
      cases hwf; assumption
    have hkids : ∀ v ∈ vs, WF v := by cases hwf; assumption
    have hlenE : (rlp_encode (RLPValue.list vs)).length
        = (lenPrefix 0xc0 (rlp_encode_list vs).length).length
          + (rlp_encode_list vs).length := by
      rw [rlp_encode]
      simp
    by_cases hshort : (rlp_encode_list vs).length ≤ 55
    · -- short List form
      have hE : rlp_encode (RLPValue.list vs)
          = (0xc0 + (rlp_encode_list vs).length) :: rlp_encode_list vs := by
        rw [rlp_encode]
        unfold lenPrefix
        rw [if_pos hshort]
        rfl
      have hfuel2 : 2 * (rlp_encode_list vs).length + 1 ≤ f := by
        rw [hE] at hfuel
        simp only [List.length_cons] at hfuel
        omega
      have hitems : decodeItems f (rlp_encode_list vs) = some vs :=
        decodeItems_encList vs ih hkids f hfuel2
      have c1 : ¬ ((0xc0:ℕ) + (rlp_encode_list vs).length < 0x80) := by omega
      have c2 : ¬ ((0xc0:ℕ) + (rlp_encode_list vs).length ≤ 0xb7) := by omega
      have c3 : ¬ ((0xc0:ℕ) + (rlp_encode_list vs).length ≤ 0xbf) := by omega
      have c4 : (0xc0:ℕ) + (rlp_encode_list vs).length ≤ 0xf7 := by omega
      have c5 : (0xc0:ℕ) + (rlp_encode_list vs).length - 0xc0
          = (rlp_encode_list vs).length := by omega
      have c6 : (rlp_encode_list vs).length
          ≤ (rlp_encode_list vs ++ rest).length := by simp
      rw [hE, List.cons_append, decodeItem]
      simp only [c1, c2, c3, c4, c5, if_false, if_true, ite_true, ite_false,
        if_pos c6, List.take_left, List.drop_left, hitems]
    · -- long List form
      have hd1 : 1 ≤ (beBytes (rlp_encode_list vs).length).length := by
        obtain ⟨hne, _⟩ :=
          beBytes_headI (show 0 < (rlp_encode_list vs).length by omega)
        cases h : beBytes (rlp_encode_list vs).length with
        | nil => exact absurd h hne
        | cons a t => simp
      have hd8 : (beBytes (rlp_encode_list vs).length).length ≤ 8 := by
        apply beBytes_length
        calc (rlp_encode_list vs).length < 2 ^ 64 := hsz
        _ = 256 ^ 8 := by norm_num
      have hE : rlp_encode (RLPValue.list vs)
          = (0xc0 + 55 + (beBytes (rlp_encode_list vs).length).length)
            :: (beBytes (rlp_encode_list vs).length ++ rlp_encode_list vs) := by
        rw [rlp_encode]
        unfold lenPrefix
        rw [if_neg hshort]
        rfl
      have hfuel2 : 2 * (rlp_encode_list vs).length + 1 ≤ f := by
        rw [hE] at hfuel
        simp only [List.length_cons, List.length_append] at hfuel
        omega
      have hitems : decodeItems f (rlp_encode_list vs) = some vs :=
        decodeItems_encList vs ih hkids f hfuel2
      have c1 : ¬ ((0xc0:ℕ) + 55
          + (beBytes (rlp_encode_list vs).length).length < 0x80) := by omega
      have c2 : ¬ ((0xc0:ℕ) + 55
          + (beBytes (rlp_encode_list vs).length).length ≤ 0xb7) := by omega
      have c3 : ¬ ((0xc0:ℕ) + 55
          + (beBytes (rlp_encode_list vs).length).length ≤ 0xbf) := by omega
      have c4 : ¬ ((0xc0:ℕ) + 55
          + (beBytes (rlp_encode_list vs).length).length ≤ 0xf7) := by omega
      have c5 : (0xc0:ℕ) + 55
          + (beBytes (rlp_encode_list vs).length).length ≤ 0xff := by omega
      have c6 : (0xc0:ℕ) + 55
          + (beBytes (rlp_encode_list vs).length).length - 0xf7
          = (beBytes (rlp_encode_list vs).length).length := by omega
      have c7 : (beBytes (rlp_encode_list vs).length).length
          ≤ (beBytes (rlp_encode_list vs).length
            ++ (rlp_encode_list vs ++ rest)).length := by simp
      have c8 : ¬ ((beBytes (rlp_encode_list vs).length).headI = 0) :=
        (beBytes_headI (show 0 < (rlp_encode_list vs).length by omega)).2
      have c9 : (rlp_encode_list vs).length
          ≤ (rlp_encode_list vs ++ rest).length := by simp
      rw [hE, List.cons_append, List.append_assoc, decodeItem]
      simp only [c1, c2, c3, c4, c5, c6, if_false, if_true, ite_true,
        ite_false, if_pos c7, List.take_left, List.drop_left, if_neg c8,
        fromBE_beBytes, if_neg hshort, if_pos c9, hitems]

/-- C1: for every Value tree constructible within the depth/size bounds
(`WF`), decoding the encoding yields the same Value again:
decode(encode(V)) = V. -/
theorem claim1_roundtrip (v : RLPValue) (hwf : WF v) :
    rlp_decode (rlp_encode v) = some v := by
  unfold rlp_decode
  have h := decodeItem_encode v [] (2 * (rlp_encode v).length + 2) hwf (by omega)
  rw [List.append_nil] at h
  rw [h]

/-- Evaluation of `native_encode` on a well-shaped call: one type
argument, one reference argument that reads back a value, and enough gas. -/
theorem native_encode_eval (ctx : NativeContext) (store : List RLPValue)
    (t : MoveType) (r : Nat) (v : RLPValue)
    (hr : readRef store r = .ok v)
    (hgas : OBJECT_EXISTS_AT_BASE ≤ ctx.balance) :
    native_encode ctx store [t] [MoveValue.ref r]
      = .ok (⟨ctx.balance - OBJECT_EXISTS_AT_BASE,
              ctx.charged + OBJECT_EXISTS_AT_BASE⟩, store,
             [MoveValue.vectorU8 (rlp_encode v)]) := by
  unfold native_encode
  simp [popRefArg, charge, hgas, hr, Bind.bind, Except.bind,
    Functor.map, Except.map, Pure.pure, Except.pure]

/-- Evaluation of `native_decode` on a well-shaped call: the result is
fully determined by the outcome of the codec core on the referenced
value. -/
theorem native_decode_eval (ctx : NativeContext) (store : List RLPValue)
    (t : MoveType) (r : Nat) (v : RLPValue)
    (hr : readRef store r = .ok v)
    (hgas : OBJECT_EXISTS_AT_BASE ≤ ctx.balance) :
    native_decode ctx store [t] [MoveValue.ref r]
      = match rlp_decode_fill v with
        | some buffer =>
            .ok (⟨ctx.balance - OBJECT_EXISTS_AT_BASE,
                  ctx.charged + OBJECT_EXISTS_AT_BASE⟩, store,
                 [MoveValue.vectorU8 buffer])
        | none => .error (.abort NFE_BCS_SERIALIZATION_FAILURE) := by
  unfold native_decode
  cases hf : rlp_decode_fill v <;>
    simp [popRefArg, charge, hgas, hr, hf, Bind.bind, Except.bind,
      Functor.map, Except.map, Pure.pure, Except.pure, throw, throwThe,
      MonadExceptOf.throw]

/-- A successful `charge` records exactly the charged amount. -/
theorem charge_ok_charged (ctx c : NativeContext) (amount : Nat)
    (hc : charge ctx amount = .ok c) :
    c.charged = ctx.charged + amount := by
  unfold charge at hc
  split at hc
  · cases hc
    rfl
  · cases hc

/-- Inversion of a successful `native_encode` call, for arbitrary
argument vectors: the store is returned unchanged, exactly the base cost
was charged, and the single result is the byte vector of the encoding of
the referenced value. -/
theorem native_encode_ok_inv (ctx ctxm : NativeContext)
    (store st : List RLPValue) (tyArgs : List MoveType)
    (args out : List MoveValue)
    (h : native_encode ctx store tyArgs args = .ok (ctxm, st, out)) :
    st = store ∧ ctxm.charged = ctx.charged + OBJECT_EXISTS_AT_BASE ∧
    ∃ r v, popRefArg args = .ok r ∧ readRef store r = .ok v ∧
      out = [MoveValue.vectorU8 (rlp_encode v)] := by
  unfold native_encode at h
  by_cases h1 : tyArgs.length = 1
  case neg => simp [h1, Bind.bind, Except.bind] at h
  by_cases h2 : args.length = 1
  case neg =>
    simp [h1, h2, Bind.bind, Except.bind, Pure.pure, Except.pure] at h
  cases hp : popRefArg args with
  | error e =>
    simp [h1, h2, hp, Bind.bind, Except.bind, Pure.pure, Except.pure,
      Functor.map, Except.map] at h
  | ok r =>
    cases hc : charge ctx OBJECT_EXISTS_AT_BASE with
    | error e =>
      simp [h1, h2, hp, hc, Bind.bind, Except.bind, Pure.pure,
        Except.pure, Functor.map, Except.map] at h
    | ok c =>
      cases hv : readRef store r with
      | error e =>
        simp [h1, h2, hp, hc, hv, Bind.bind, Except.bind, Pure.pure,
          Except.pure, Functor.map, Except.map] at h
      | ok v =>
        simp only [h1, h2, hp, hc, hv, reduceIte, Bind.bind, Except.bind,
          Pure.pure, Except.pure, Functor.map, Except.map,
          Except.ok.injEq, Prod.mk.injEq] at h
        obtain ⟨hcm, hst, hout⟩ := h
        subst hcm hst hout
        exact ⟨rfl, charge_ok_charged ctx c _ hc, r, v, rfl, hv, rfl⟩

/-- Inversion of a successful `native_decode` call, for arbitrary
argument vectors: the store is returned unchanged, exactly the base cost
was charged, and the single result is the byte vector filled by the codec
core. -/
theorem native_decode_ok_inv (ctx ctxm : NativeContext)
    (store st : List RLPValue) (tyArgs : List MoveType)
    (args out : List MoveValue)
    (h : native_decode ctx store tyArgs args = .ok (ctxm, st, out)) :
    st = store ∧ ctxm.charged = ctx.charged + OBJECT_EXISTS_AT_BASE ∧
    ∃ r v buf, popRefArg args = .ok r ∧ readRef store r = .ok v ∧
      rlp_decode_fill v = some buf ∧ out = [MoveValue.vectorU8 buf] := by
  unfold native_decode at h
  by_cases h1 : tyArgs.length = 1
  case neg => simp [h1, Bind.bind, Except.bind] at h
  by_cases h2 : args.length = 1
  case neg =>
    simp [h1, h2, Bind.bind, Except.bind, Pure.pure, Except.pure] at h
  cases hp : popRefArg args with
  | error e =>
    simp [h1, h2, hp, Bind.bind, Except.bind, Pure.pure, Except.pure,
      Functor.map, Except.map] at h
  | ok r =>
    cases hv : readRef store r with
    | error e =>
      simp [h1, h2, hp, hv, Bind.bind, Except.bind, Pure.pure,
        Except.pure, Functor.map, Except.map] at h
    | ok v =>
      cases hc : charge ctx OBJECT_EXISTS_AT_BASE with
      | error e =>
        simp [h1, h2, hp, hv, hc, Bind.bind, Except.bind, Pure.pure,
          Except.pure, Functor.map, Except.map] at h
      | ok c =>
        cases hf : rlp_decode_fill v with
        | none =>
          simp [h1, h2, hp, hv, hc, hf, Bind.bind, Except.bind,
            Pure.pure, Except.pure, Functor.map, Except.map] at h
        | some buf =>
          simp only [h1, h2, hp, hv, hc, hf, reduceIte, Bind.bind,
            Except.bind, Pure.pure, Except.pure, Functor.map, Except.map,
            Except.ok.injEq, Prod.mk.injEq] at h
          obtain ⟨hcm, hst, hout⟩ := h
          subst hcm hst hout
          exact ⟨rfl, charge_ok_charged ctx c _ hc, r, v, buf,
            rfl, hv, hf, rfl⟩

/-- Witness for C1: the round-trip at the concrete nested value
`List [Bytes [10], List []]`. -/
theorem claim1_roundtrip_witness :
    WF (RLPValue.list [RLPValue.bytes [10], RLPValue.list []]) ∧
    rlp_decode (rlp_encode (RLPValue.list [RLPValue.bytes [10], RLPValue.list []]))
      = some (RLPValue.list [RLPValue.bytes [10], RLPValue.list []]) := by
  have hwf : WF (RLPValue.list [RLPValue.bytes [10], RLPValue.list []]) := by
    refine WF.list _ (by decide) ?_
    intro v hv
    simp only [List.mem_cons, List.not_mem_nil, or_false] at hv
    rcases hv with rfl | rfl
    · exact WF.bytes _ (by decide)
    · refine WF.list _ (by decide) ?_
      intro v hv
      exact absurd hv (List.not_mem_nil v)
  exact ⟨hwf, claim1_roundtrip _ hwf⟩

/-- C2: on a well-shaped call, `native_decode` either returns the single
fully decoded result or fails, and every decode failure surfaces as the
one reserved abort status code `NFE_BCS_SERIALIZATION_FAILURE`; no
partial output exists. -/
theorem claim2_decode_uniform_failure (ctx : NativeContext)
    (store : List RLPValue) (t : MoveType) (r : Nat) (bs : List Nat)
    (hr : readRef store r = .ok (RLPValue.bytes bs))
    (hgas : OBJECT_EXISTS_AT_BASE ≤ ctx.balance) :
    (∃ ctxm w, rlp_decode bs = some w ∧
      native_decode ctx store [t] [MoveValue.ref r]
        = .ok (ctxm, store, [MoveValue.vectorU8 (rlp_encode w)])) ∨
    (rlp_decode bs = none ∧
      native_decode ctx store [t] [MoveValue.ref r]
        = .error (SafeNativeError.abort NFE_BCS_SERIALIZATION_FAILURE)) := by
  have he := native_decode_eval ctx store t r _ hr hgas
  cases hd : rlp_decode bs with
  | some w =>
    left
    have hfill : rlp_decode_fill (RLPValue.bytes bs)
        = some (rlp_encode w) := by
      simp [rlp_decode_fill, hd]
    rw [hfill] at he
    exact ⟨_, w, rfl, he⟩
  | none =>
    right
    have hfill : rlp_decode_fill (RLPValue.bytes bs) = none := by
      simp [rlp_decode_fill, hd]
    rw [hfill] at he
    exact ⟨rfl, he⟩

/-- Witness for C2 at the malformed concrete input `0x81 0x00`, which
takes the uniform-abort branch. -/
theorem claim2_decode_uniform_failure_witness :
    (∃ ctxm w, rlp_decode [0x81, 0x00] = some w ∧
      native_decode ⟨919, 0⟩ [RLPValue.bytes [0x81, 0x00]] [MoveType.u8]
          [MoveValue.ref 0]
        = .ok (ctxm, [RLPValue.bytes [0x81, 0x00]],
            [MoveValue.vectorU8 (rlp_encode w)])) ∨
    (rlp_decode [0x81, 0x00] = none ∧
      native_decode ⟨919, 0⟩ [RLPValue.bytes [0x81, 0x00]] [MoveType.u8]
          [MoveValue.ref 0]
        = .error (SafeNativeError.abort NFE_BCS_SERIALIZATION_FAILURE)) :=
  claim2_decode_uniform_failure ⟨919, 0⟩ [RLPValue.bytes [0x81, 0x00]]
    MoveType.u8 0 [0x81, 0x00] rfl (by decide)

/-- C3: decode rejects the non-canonical two-byte form `0x81 b` for every
content byte `b < 0x80` (the byte should have been encoded bare). -/
theorem claim3_reject_noncanonical_single_byte (b : Nat) (hb : b < 0x80) :
    rlp_decode [0x81, b] = none := by
  unfold rlp_decode
  simp [decodeItem, List.headI, hb]

/-- Witness for C3 at the spec's concrete input `0x81 0x00`. -/
theorem claim3_reject_noncanonical_single_byte_witness :
    (0 : Nat) < 0x80 ∧ rlp_decode [0x81, 0x00] = none :=
  ⟨by decide, claim3_reject_noncanonical_single_byte 0 (by decide)⟩

/-- C4: encoding is total — every well-shaped `native_encode` call with
one type argument, one readable reference argument and sufficient budget
succeeds with exactly one byte-vector result. -/
theorem claim4_encode_total (ctx : NativeContext) (store : List RLPValue)
    (t : MoveType) (r : Nat) (v : RLPValue)
    (hr : readRef store r = .ok v)
    (hgas : OBJECT_EXISTS_AT_BASE ≤ ctx.balance) :
    ∃ ctxm bs, native_encode ctx store [t] [MoveValue.ref r]
      = .ok (ctxm, store, [MoveValue.vectorU8 bs]) :=
  ⟨_, _, native_encode_eval ctx store t r v hr hgas⟩

/-- Witness for C4 at a concrete call encoding the empty Bytes value. -/
theorem claim4_encode_total_witness :
    ∃ ctxm bs, native_encode ⟨919, 0⟩ [RLPValue.bytes []] [MoveType.u8]
        [MoveValue.ref 0]
      = .ok (ctxm, [RLPValue.bytes []], [MoveValue.vectorU8 bs]) :=
  claim4_encode_total ⟨919, 0⟩ [RLPValue.bytes []] MoveType.u8 0
    (RLPValue.bytes []) rfl (by decide)

/-- C5: encoding is deterministic — two successful `native_encode`
invocations whose references read back the same Value produce identical
byte-sequence outputs, whatever the contexts, stores or type arguments. -/
theorem claim5_encode_deterministic
    (c1 c2 d1 d2 : NativeContext) (s1 s2 st1 st2 : List RLPValue)
    (t1 t2 : MoveType) (r1 r2 : Nat) (v : RLPValue)
    (o1 o2 : List MoveValue)
    (h1 : readRef s1 r1 = .ok v) (h2 : readRef s2 r2 = .ok v)
    (e1 : native_encode c1 s1 [t1] [MoveValue.ref r1] = .ok (d1, st1, o1))
    (e2 : native_encode c2 s2 [t2] [MoveValue.ref r2] = .ok (d2, st2, o2)) :
    o1 = o2 := by
  obtain ⟨-, -, ra, va, hpa, hva, hoa⟩ :=
    native_encode_ok_inv _ _ _ _ _ _ _ e1
  obtain ⟨-, -, rb, vb, hpb, hvb, hob⟩ :=
    native_encode_ok_inv _ _ _ _ _ _ _ e2
  have hra : r1 = ra := by simpa [popRefArg] using hpa
  have hrb : r2 = rb := by simpa [popRefArg] using hpb
  subst hra hrb
  rw [h1] at hva
  rw [h2] at hvb
  cases hva
  cases hvb
  rw [hoa, hob]

/-- Witness for C5: two calls with different gas contexts and stores on
the same referenced value yield the same output. -/
theorem claim5_encode_deterministic_witness :
    [MoveValue.vectorU8 [0x80]] = [MoveValue.vectorU8 [0x80]] :=
  claim5_encode_deterministic ⟨919, 0⟩ ⟨1000, 5⟩ ⟨0, 919⟩ ⟨81, 924⟩
    [RLPValue.bytes []] [RLPValue.list [], RLPValue.bytes []]
    [RLPValue.bytes []] [RLPValue.list [], RLPValue.bytes []]
    MoveType.u8 MoveType.address 0 1 (RLPValue.bytes [])
    [MoveValue.vectorU8 [0x80]] [MoveValue.vectorU8 [0x80]]
    rfl rfl rfl rfl

/-- Counterexample for C6: the gas charged by `native_decode` is NOT
proportional to the input byte length — the code charges the fixed
`OBJECT_EXISTS_AT_BASE` on every call, so no positive proportionality
constant exists (inputs of lengths 1 and 2 are both charged the same). -/
theorem claim6_gas_proportional_counterexample :
    ¬ ∃ k : ℚ, 0 < k ∧
      ∀ (ctx ctxm : NativeContext) (store st : List RLPValue) (r : Nat)
        (bs : List Nat) (t : MoveType) (out : List MoveValue),
        readRef store r = .ok (RLPValue.bytes bs) →
        native_decode ctx store [t] [MoveValue.ref r] = .ok (ctxm, st, out) →
        (ctxm.charged : ℚ) - (ctx.charged : ℚ) = k * (bs.length : ℚ) := by
  rintro ⟨k, hk, h⟩
  have h1 := h ⟨919, 0⟩ ⟨0, 919⟩ [RLPValue.bytes [0x00]]
    [RLPValue.bytes [0x00]] 0 [0x00] MoveType.u8
    [MoveValue.vectorU8 [0x00]] rfl rfl
  have h2 := h ⟨919, 0⟩ ⟨0, 919⟩ [RLPValue.bytes [0x81, 0x80]]
    [RLPValue.bytes [0x81, 0x80]] 0 [0x81, 0x80] MoveType.u8
    [MoveValue.vectorU8 [0x81, 0x80]] rfl rfl
  norm_num at h1 h2
  linarith

/-- C6 amended: the resource cost charged per call is the fixed base
amount `OBJECT_EXISTS_AT_BASE`, independent of the input byte length and
of the tree size, for both natives. -/
theorem claim6_gas_fixed_base (ctx ctxm : NativeContext)
    (store st : List RLPValue) (tyArgs : List MoveType)
    (args out : List MoveValue) :
    (native_encode ctx store tyArgs args = .ok (ctxm, st, out) →
      ctxm.charged = ctx.charged + OBJECT_EXISTS_AT_BASE) ∧
    (native_decode ctx store tyArgs args = .ok (ctxm, st, out) →
      ctxm.charged = ctx.charged + OBJECT_EXISTS_AT_BASE) :=
  ⟨fun h => (native_encode_ok_inv _ _ _ _ _ _ _ h).2.1,
   fun h => (native_decode_ok_inv _ _ _ _ _ _ _ h).2.1⟩

/-- Witness for the amended C6 at a concrete successful encode call. -/
theorem claim6_gas_fixed_base_witness :
    (⟨0, 919⟩ : NativeContext).charged
      = (⟨919, 0⟩ : NativeContext).charged + OBJECT_EXISTS_AT_BASE :=
  (claim6_gas_fixed_base ⟨919, 0⟩ ⟨0, 919⟩ [RLPValue.bytes []]
    [RLPValue.bytes []] [MoveType.u8] [MoveValue.ref 0]
    [MoveValue.vectorU8 [0x80]]).1 rfl

/-- C7: neither native mutates the referenced input — any successful call
returns the reference store unchanged (and, the embedding being pure
state-passing, each invocation is a function of its inputs alone). -/
theorem claim7_no_mutation (ctx ctxm : NativeContext)
    (store st : List RLPValue) (tyArgs : List MoveType)
    (args out : List MoveValue) :
    (native_encode ctx store tyArgs args = .ok (ctxm, st, out) →
      st = store) ∧
    (native_decode ctx store tyArgs args = .ok (ctxm, st, out) →
      st = store) :=
  ⟨fun h => (native_encode_ok_inv _ _ _ _ _ _ _ h).1,
   fun h => (native_decode_ok_inv _ _ _ _ _ _ _ h).1⟩

/-- Witness for C7 at a concrete successful encode call. -/
theorem claim7_no_mutation_witness :
    [RLPValue.bytes [0x05]] = [RLPValue.bytes [0x05]] :=
  (claim7_no_mutation ⟨919, 0⟩ ⟨0, 919⟩ [RLPValue.bytes [0x05]]
    [RLPValue.bytes [0x05]] [MoveType.u8] [MoveValue.ref 0]
    [MoveValue.vectorU8 [0x05]]).1 rfl

/-- C8: the result of `native_decode` does not depend on the supplied
type argument — it is popped but never consulted. -/
theorem claim8_decode_type_irrelevant (ctx : NativeContext)
    (store : List RLPValue) (t tp : MoveType) (args : List MoveValue) :
    native_decode ctx store [t] args = native_decode ctx store [tp] args :=
  rfl

/-- C9: every successful `native_decode` call returns exactly one Move
value, and it is the `vector<u8>` holding the buffer filled by the codec
core — not a tree-structured value of the target type. -/
theorem claim9_decode_returns_byte_vector (ctx ctxm : NativeContext)
    (store st : List RLPValue) (tyArgs : List MoveType)
    (args out : List MoveValue)
    (h : native_decode ctx store tyArgs args = .ok (ctxm, st, out)) :
    ∃ r v buf, popRefArg args = .ok r ∧ readRef store r = .ok v ∧
      rlp_decode_fill v = some buf ∧ out = [MoveValue.vectorU8 buf] :=
  (native_decode_ok_inv _ _ _ _ _ _ _ h).2.2

/-- Witness for C9 at a concrete successful decode call. -/
theorem claim9_decode_returns_byte_vector_witness :
    ∃ r v buf, popRefArg [MoveValue.ref 0] = .ok r ∧
      readRef [RLPValue.bytes [0x05]] r = .ok v ∧
      rlp_decode_fill v = some buf ∧
      [MoveValue.vectorU8 [0x05]] = [MoveValue.vectorU8 buf] :=
  claim9_decode_returns_byte_vector ⟨919, 0⟩ ⟨0, 919⟩
    [RLPValue.bytes [0x05]] [RLPValue.bytes [0x05]] [MoveType.u8]
    [MoveValue.ref 0] [MoveValue.vectorU8 [0x05]] rfl

/-- C10: both natives check arity at entry — any call with a number of
type arguments or value arguments other than one returns the
invariant-violation error (it does not panic and does not proceed). -/
theorem claim10_arity_checked (ctx : NativeContext) (store : List RLPValue)
    (tyArgs : List MoveType) (args : List MoveValue)
    (h : tyArgs.length ≠ 1 ∨ args.length ≠ 1) :
    native_encode ctx store tyArgs args
      = .error SafeNativeError.invariantViolation ∧
    native_decode ctx store tyArgs args
      = .error SafeNativeError.invariantViolation := by
  by_cases h1 : tyArgs.length = 1
  · have h2 : ¬ args.length = 1 := by tauto
    constructor
    · unfold native_encode
      simp [h1, h2, Bind.bind, Except.bind, Pure.pure, Except.pure,
        throw, throwThe, MonadExceptOf.throw]
    · unfold native_decode
      simp [h1, h2, Bind.bind, Except.bind, Pure.pure, Except.pure,
        throw, throwThe, MonadExceptOf.throw]
  · constructor
    · unfold native_encode
      simp [h1, Bind.bind, Except.bind, Pure.pure, Except.pure,
        throw, throwThe, MonadExceptOf.throw]
    · unfold native_decode
      simp [h1, Bind.bind, Except.bind, Pure.pure, Except.pure,
        throw, throwThe, MonadExceptOf.throw]

/-- Witness for C10 at a concrete zero-type-argument call. -/
theorem claim10_arity_checked_witness :
    native_encode ⟨919, 0⟩ [] [] [MoveValue.ref 0]
      = .error SafeNativeError.invariantViolation ∧
    native_decode ⟨919, 0⟩ [] [] [MoveValue.ref 0]
      = .error SafeNativeError.invariantViolation :=
  claim10_arity_checked ⟨919, 0⟩ [] [] [MoveValue.ref 0]
    (Or.inl (by decide))

end RLP
